import Mathlib

/-!
The backend_workspace repository: configuration helpers and server bootstrap.

A shallow embedding of `core/config/config.go` and `core/core.go`.

Go strings are modelled as Lean `String`s; the byte-level helpers of the Go
standard library that the code calls (`strings.Split`, `strings.HasPrefix`,
`os.LookupEnv`) are modelled on the underlying character lists.  The only
separator and prefix the code uses are ASCII, so splitting and prefix tests
agree with the byte-level ones on UTF-8 text.
-/

namespace config

/-- The process environment: `os.LookupEnv` as a function from a key to the
value of the variable, `none` when the variable is not present. -/
abbrev Environ := String → Option String

/-- Position of the first occurrence of `sep` in `s` (`strings.Index` with a
one-byte separator), `none` for Go's `-1`. -/
def Index (s : List Char) (sep : Char) : Option Nat :=
  match s with
  | [] => none
  | c :: cs => if c = sep then some 0 else (Index cs sep).map (· + 1)

/-- Number of occurrences of `sep` in `s`: `strings.Count` with a one-byte separator. -/
def Count (s : List Char) (sep : Char) : Nat :=
  s.count sep

/-- The loop of `strings.genSplit`: at most `n` more cuts, each at the first
separator of what is left; the rest of the string is the last element. -/
def genSplitLoop (sep : Char) : Nat → List Char → List (List Char)
  | 0, s => [s]
  | n + 1, s =>
    match Index s sep with
    | none => [s]
    | some m => s.take m :: genSplitLoop sep n (s.drop (m + 1))

/-- Go's `strings.genSplit(s, sep, 0, -1)` for a one-byte separator: the
element count is `Count(s, sep) + 1`, capped at `len(s) + 1`. -/
def genSplit (s : List Char) (sep : Char) : List (List Char) :=
  let n := min (Count s sep + 1) (s.length + 1)
  genSplitLoop sep (n - 1) s

/-- Go's `strings.Split(s, ",")`. -/
def Split (s : String) : List String :=
  (genSplit s.data ',').map String.mk

/-- Go's `strings.Join(elems, sep)`. -/
def Join : List String → String → String
  | [], _ => ""
  | [a], _ => a
  | a :: b :: rest, sep => a ++ sep ++ Join (b :: rest) sep

/-- The function `LookupEnv` of `config.go`: the value of the variable when it is present,
the default value otherwise. -/
def LookupEnv (env : Environ) (key defaultValue : String) : String :=
  match env key with
  | none => defaultValue
  | some v => v

/-- The function `LookupEnvAsSlice` of `config.go`: the value split on commas when the
variable is present, the default slice otherwise. -/
def LookupEnvAsSlice (env : Environ) (key : String) (defaultValue : List String) :
    List String :=
  match env key with
  | none => defaultValue
  | some v => Split v

/-- Splitting on every comma, written by structural recursion: a comma closes
the current piece, any other character extends it. -/
def splitOnCommas : List Char → List (List Char)
  | [] => [[]]
  | c :: cs =>
    if c = ',' then [] :: splitOnCommas cs
    else
      match splitOnCommas cs with
      | [] => [[c]]
      | piece :: pieces => (c :: piece) :: pieces

/-- Errors are modelled by their message. -/
abbrev Error := String

/-- The function `From` of `config.go`, over the two library calls it makes:
`yamlDecode input i` is `yaml.NewDecoder(in).Decode(i)` on a reader with
content `input`, `envProcess i` is `envconfig.Process(context.TODO(), i)`.
Both update the target and return an error or `none` for `nil`. -/
def From {τ : Type} (yamlDecode : String → τ → τ × Option Error)
    (envProcess : τ → τ × Option Error) (input : String) (i : τ) : τ × Option Error :=
  match yamlDecode input i with
  | (i₁, some err) => (i₁, some err)
  | (i₁, none) => envProcess i₁

/-- The function `Process` of `config.go`: the environment overlay alone. -/
def Process {τ : Type} (envProcess : τ → τ × Option Error) (i : τ) : τ × Option Error :=
  envProcess i

/-- The fixed path `FromConfigMap` reads. -/
def configMapPath : String := "/etc/app/config.yaml"

/-- The function `FromConfigMap` of `config.go`; `readFile` is `os.ReadFile`. -/
def FromConfigMap {τ : Type} (readFile : String → Except Error String)
    (yamlDecode : String → τ → τ × Option Error)
    (envProcess : τ → τ × Option Error) (i : τ) : τ × Option Error :=
  match readFile configMapPath with
  | .error _ => envProcess i
  | .ok b => From yamlDecode envProcess b i

end config

namespace core

/-- The type `ServerMode`, a Go `string`. -/
abbrev ServerMode := String

/-- The HTTP server mode. -/
def ServerModeHTTP : ServerMode := "HTTP"

/-- The gRPC server mode. -/
def ServerModeGRPC : ServerMode := "GRPC"

/-- Errors are modelled by their message. -/
abbrev Error := String

/-- A `*grpc.Server`, as the list of services registered on it. -/
abbrev GrpcServer := List String

/-- The `Core` struct.  `RegisterHTTPFunc` is applied to the gRPC endpoint it
is given and returns its error (`none` for `nil`). -/
structure Core where
  GRPCAddress : String
  HTTPAddress : String
  Mode : List ServerMode
  RegisterGRPCFunc : GrpcServer → GrpcServer
  RegisterHTTPFunc : String → Option Error

/-- The constructor `NewCore` of `core.go`. -/
def NewCore (grpcAddress httpAddress : String) (mode : List ServerMode)
    (registerGRPCFunc : GrpcServer → GrpcServer)
    (registerHTTPFunc : String → Option Error) : Core :=
  { GRPCAddress := grpcAddress
    HTTPAddress := httpAddress
    Mode := mode
    RegisterGRPCFunc := registerGRPCFunc
    RegisterHTTPFunc := registerHTTPFunc }

/-- What a call that may serve forever comes to: it never returns, or it
returns an error (`none` for `nil`). -/
inductive CallResult where
  | blocks
  | returns (err : Option Error)
  deriving DecidableEq, Repr

/-- The network calls of the two start functions: `net.Listen("tcp", addr)`,
`grpcServer.Serve(lis)` and `gwServer.ListenAndServe()`. -/
structure Net where
  Listen : String → Option Error
  GrpcServe : GrpcServer → CallResult
  ListenAndServe : String → CallResult

/-- The method `startGRPCServer` of `core.go`. -/
def startGRPCServer (c : Core) (net : Net) : CallResult :=
  match net.Listen c.GRPCAddress with
  | some err => .returns (some err)
  | none => net.GrpcServe (c.RegisterGRPCFunc [])

/-- The method `startHTTPServer` of `core.go`. -/
def startHTTPServer (c : Core) (net : Net) : CallResult :=
  match c.RegisterHTTPFunc c.GRPCAddress with
  | some err => .returns (some err)
  | none => net.ListenAndServe c.HTTPAddress

/-- Go's `strings.HasPrefix`:
`len(s) >= len(prefix) && s[:len(prefix)] == prefix`. -/
def HasPrefix (s pre : String) : Bool :=
  decide (s.data.length ≥ pre.data.length) && s.data.take pre.data.length == pre.data

/-- The two handlers behind the HTTP server. -/
inductive Handler where
  | mux
  | openAPI
  deriving DecidableEq, Repr

/-- The handler function of the server built in `startHTTPServer`, as the
list of `ServeHTTP` calls it makes for a request with URL path `path`. -/
def httpHandler (path : String) : List Handler :=
  if HasPrefix path "/v1" then [Handler.mux]
  else [Handler.openAPI]

/-- The assignment `modes[m] = struct{}{}` on a map kept as the list of its keys. -/
def mapInsert (keys : List ServerMode) (m : ServerMode) : List ServerMode :=
  if m ∈ keys then keys else keys ++ [m]

/-- The map `modes` that `Serve` builds from `c.Mode`, as the list of its keys. -/
def modeSet (mode : List ServerMode) : List ServerMode :=
  mode.foldl mapInsert []

/-- The two workers `Serve` can start. -/
inductive Worker where
  | grpc
  | http
  deriving DecidableEq, Repr

/-- What the second loop of `Serve` does: `wg.Add(1)` and `go func() ...`. -/
inductive Event where
  | add
  | spawn (w : Worker)
  deriving DecidableEq, Repr

/-- One iteration of the second loop of `Serve`, for the key `m`. -/
def serveStep (m : ServerMode) : List Event :=
  Event.add ::
    (if m = ServerModeGRPC then [Event.spawn Worker.grpc]
     else if m = ServerModeHTTP then [Event.spawn Worker.http]
     else [])

/-- The second loop of `Serve`, over the keys in the order `range` visits them. -/
def serveLoop : List ServerMode → List Event
  | [] => []
  | m :: ms => serveStep m ++ serveLoop ms

/-- The number of `wg.Add(1)` calls among the events. -/
def addCount (events : List Event) : Nat :=
  events.count Event.add

/-- The workers started among the events, in order. -/
def workers : List Event → List Worker
  | [] => []
  | Event.add :: es => workers es
  | Event.spawn w :: es => w :: workers es

/-- The start function a worker runs. -/
def start (c : Core) (net : Net) : Worker → CallResult
  | Worker.grpc => startGRPCServer c net
  | Worker.http => startHTTPServer c net

/-- How a worker goroutine ends. -/
inductive Exit where
  | running
  | done
  | fatal (msg : String)
  deriving DecidableEq, Repr

/-- The body of a worker goroutine: `log.Fatalf` on an error, otherwise the
deferred `wg.Done()` when the start function returns. -/
def goroutine (c : Core) (net : Net) (w : Worker) : Exit :=
  match start c net w with
  | .blocks => Exit.running
  | .returns none => Exit.done
  | .returns (some err) =>
    match w with
    | Worker.grpc => Exit.fatal ("Failed to start gRPC server: " ++ err)
    | Worker.http => Exit.fatal ("Failed to start HTTP server: " ++ err)

/-- Whether a goroutine ended in `log.Fatalf`. -/
def Exit.isFatal : Exit → Bool
  | Exit.fatal _ => true
  | _ => false

/-- What a call of `Serve` comes to. -/
inductive Outcome where
  | processExited
  | returned
  | waiting
  deriving DecidableEq, Repr

/-- The `sync.WaitGroup` counter once every started worker that exits has
exited: the `Add(1)` calls less the `Done()` calls. -/
def waitCounter (events : List Event) (exits : List Exit) : Nat :=
  addCount events - exits.count Exit.done

/-- The method `Serve` of `core.go`, for the order `order` in which `range` visits the
keys of `modes`: `log.Fatalf` in a worker exits the process, `wg.Wait()`
returns when the counter is zero. -/
def Serve (c : Core) (net : Net) (order : List ServerMode) : Outcome :=
  let events := serveLoop order
  let exits := (workers events).map (goroutine c net)
  if exits.any Exit.isFatal then Outcome.processExited
  else if waitCounter events exits = 0 then Outcome.returned
  else Outcome.waiting

/-- Whether `Serve` has a worker for the mode. -/
def known (m : ServerMode) : Bool :=
  decide (m = ServerModeGRPC) || decide (m = ServerModeHTTP)

/-- The orders in which `range modes` may visit the keys in `Serve`. -/
def RangeOrder (c : Core) (order : List ServerMode) : Prop :=
  order.Perm (modeSet c.Mode)

end core

/-! ## `strings.Split` on a comma -/

namespace config

theorem Index_eq_none {s : List Char} {sep : Char} (h : Index s sep = none) : sep ∉ s := by
  induction s with
  | nil => simp
  | cons c cs ih =>
    unfold Index at h
    by_cases hc : c = sep
    · simp [hc] at h
    · simp only [hc, if_false, Option.map_eq_none'] at h
      simp only [List.mem_cons, not_or]
      exact ⟨fun e => hc e.symm, ih h⟩

theorem Index_eq_some {s : List Char} {sep : Char} {m : Nat} (h : Index s sep = some m) :
    sep ∉ s.take m ∧ s = s.take m ++ sep :: s.drop (m + 1) := by
  induction s generalizing m with
  | nil => simp [Index] at h
  | cons c cs ih =>
    unfold Index at h
    by_cases hc : c = sep
    · simp only [hc, if_true, Option.some.injEq] at h
      subst h
      simp [hc]
    · simp only [hc, if_false, Option.map_eq_some'] at h
      obtain ⟨k, hk, rfl⟩ := h
      obtain ⟨h₁, h₂⟩ := ih hk
      refine ⟨?_, ?_⟩
      · simp only [List.take_succ_cons, List.mem_cons, not_or]
        exact ⟨fun e => hc e.symm, h₁⟩
      · simp only [List.take_succ_cons, List.drop_succ_cons, List.cons_append]
        exact congrArg _ h₂

theorem splitOnCommas_cons (c : Char) (cs : List Char) :
    splitOnCommas (c :: cs) =
      if c = ',' then [] :: splitOnCommas cs
      else
        match splitOnCommas cs with
        | [] => [[c]]
        | piece :: pieces => (c :: piece) :: pieces := rfl

theorem splitOnCommas_ne_nil (s : List Char) : splitOnCommas s ≠ [] := by
  cases s with
  | nil => simp [splitOnCommas]
  | cons c cs =>
    rw [splitOnCommas_cons]
    split
    · simp
    · split <;> simp

theorem splitOnCommas_of_not_mem {s : List Char} (h : ',' ∉ s) : splitOnCommas s = [s] := by
  induction s with
  | nil => rfl
  | cons c cs ih =>
    simp only [List.mem_cons, not_or] at h
    rw [splitOnCommas_cons]
    rw [if_neg (fun e => h.1 e.symm), ih h.2]

theorem splitOnCommas_append_comma {a : List Char} (b : List Char) (h : ',' ∉ a) :
    splitOnCommas (a ++ ',' :: b) = a :: splitOnCommas b := by
  induction a with
  | nil => simp [splitOnCommas]
  | cons c cs ih =>
    simp only [List.mem_cons, not_or] at h
    rw [List.cons_append]
    rw [splitOnCommas_cons]
    rw [if_neg (fun e => h.1 e.symm), ih h.2]

theorem genSplitLoop_eq_splitOnCommas (n : Nat) (s : List Char) (h : s.count ',' ≤ n) :
    genSplitLoop ',' n s = splitOnCommas s := by
  induction n generalizing s with
  | zero =>
    have hmem : ',' ∉ s := by
      intro hm
      have := List.count_pos_iff.mpr hm
      omega
    rw [splitOnCommas_of_not_mem hmem]
    rfl
  | succ n ih =>
    unfold genSplitLoop
    cases hI : Index s ',' with
    | none => simp only; rw [splitOnCommas_of_not_mem (Index_eq_none hI)]
    | some m =>
      simp only
      obtain ⟨h₁, h₂⟩ := Index_eq_some hI
      have hcount : (s.drop (m + 1)).count ',' ≤ n := by
        have hc : s.count ',' = (s.take m).count ',' + ((s.drop (m + 1)).count ',' + 1) := by
          conv_lhs => rw [h₂]
          simp [List.count_append, List.count_cons]
        omega
      rw [ih _ hcount]
      conv_rhs => rw [h₂]
      rw [splitOnCommas_append_comma _ h₁]

theorem genSplit_eq_splitOnCommas (s : List Char) : genSplit s ',' = splitOnCommas s := by
  unfold genSplit Count
  have hle : s.count ',' ≤ s.length := List.count_le_length _ _
  apply genSplitLoop_eq_splitOnCommas
  omega

theorem splitOnCommas_length (s : List Char) :
    (splitOnCommas s).length = s.count ',' + 1 := by
  induction s with
  | nil => rfl
  | cons c cs ih =>
    rw [splitOnCommas_cons]
    by_cases hc : c = ','
    · simp [hc, ih]
    · rw [if_neg hc]
      have hcount : (c :: cs).count ',' = cs.count ',' := by
        simp [List.count_cons, hc]
      rw [hcount, ← ih]
      cases hs : splitOnCommas cs with
      | nil => exact absurd hs (splitOnCommas_ne_nil cs)
      | cons p ps => rfl

theorem splitOnCommas_no_comma (s : List Char) :
    ∀ piece ∈ splitOnCommas s, ',' ∉ piece := by
  induction s with
  | nil => simp [splitOnCommas]
  | cons c cs ih =>
    rw [splitOnCommas_cons]
    by_cases hc : c = ','
    · simp only [hc, if_true, List.mem_cons]
      rintro piece (rfl | hp)
      · simp
      · exact ih piece hp
    · rw [if_neg hc]
      cases hs : splitOnCommas cs with
      | nil => exact absurd hs (splitOnCommas_ne_nil cs)
      | cons p ps =>
        rw [hs] at ih
        simp only [List.mem_cons]
        rintro piece (rfl | hp)
        · simp only [List.mem_cons, not_or]
          exact ⟨fun e => hc e.symm, ih p (List.mem_cons_self _ _)⟩
        · exact ih piece (List.mem_cons_of_mem _ hp)

theorem Join_cons_char (c : Char) (piece : List Char) (rest : List String) (sep : String) :
    Join (String.mk (c :: piece) :: rest) sep
      = String.mk [c] ++ Join (String.mk piece :: rest) sep := by
  cases rest with
  | nil => simp only [Join]; apply String.ext; simp
  | cons r rs => simp only [Join]; apply String.ext; simp

theorem Join_splitOnCommas (s : List Char) :
    Join ((splitOnCommas s).map String.mk) "," = String.mk s := by
  induction s with
  | nil => rfl
  | cons c cs ih =>
    rw [splitOnCommas_cons]
    by_cases hc : c = ','
    · subst hc
      rw [if_pos rfl]
      cases hs : splitOnCommas cs with
      | nil => exact absurd hs (splitOnCommas_ne_nil cs)
      | cons p ps =>
        rw [hs] at ih
        simp only [List.map_cons, Join] at ih ⊢
        rw [ih]
        apply String.ext
        simp
    · rw [if_neg hc]
      cases hs : splitOnCommas cs with
      | nil => exact absurd hs (splitOnCommas_ne_nil cs)
      | cons p ps =>
        rw [hs] at ih
        simp only [List.map_cons] at ih ⊢
        rw [Join_cons_char, ih]
        apply String.ext
        simp

end config

/-! ## Environment lookups -/

namespace config

/-- C9: `LookupEnv` returns the value of the variable whenever the key is
present in the environment, the empty value included, and returns the
fallback when the key is absent; being a total function it always returns. -/
theorem LookupEnv_value_or_fallback (env : Environ) (key fallback : String) :
    (∀ v, env key = some v → LookupEnv env key fallback = v) ∧
    (env key = some "" → LookupEnv env key fallback = "") ∧
    (env key = none → LookupEnv env key fallback = fallback) := by
  refine ⟨?_, ?_, ?_⟩ <;> intro <;> simp_all [LookupEnv]

/-- Instance of C9: a variable set to the empty value is returned as such,
an absent one gives the fallback. -/
theorem LookupEnv_value_or_fallback_witness :
    LookupEnv (fun k => if k = "X" then some "" else none) "X" "d" = "" ∧
    LookupEnv (fun k => if k = "X" then some "" else none) "Y" "d" = "d" :=
  ⟨(LookupEnv_value_or_fallback (fun k => if k = "X" then some "" else none) "X" "d").1 ""
      (by decide),
   (LookupEnv_value_or_fallback (fun k => if k = "X" then some "" else none) "Y" "d").2.2
      (by decide)⟩

/-- C8: when the key is present, `LookupEnvAsSlice` returns the value of the
variable split on every comma, in order (Go's `strings.Split` computes
exactly the pieces of `splitOnCommas`); when the key is absent it returns
the fallback slice unchanged. -/
theorem LookupEnvAsSlice_split_or_fallback (env : Environ) (key : String)
    (fallback : List String) :
    (∀ v, env key = some v →
      LookupEnvAsSlice env key fallback = (splitOnCommas v.data).map String.mk) ∧
    (env key = none → LookupEnvAsSlice env key fallback = fallback) := by
  refine ⟨?_, ?_⟩
  · intro v hv
    simp only [LookupEnvAsSlice, hv, Split, genSplit_eq_splitOnCommas]
  · intro hv
    simp only [LookupEnvAsSlice, hv]

/-- Instance of C8: with `X=foo,bar` the result is `["foo","bar"]`, with `X`
unset it is the fallback `["a"]`. -/
theorem LookupEnvAsSlice_split_or_fallback_witness :
    LookupEnvAsSlice (fun k => if k = "X" then some "foo,bar" else none) "X" ["a"]
      = ["foo", "bar"] ∧
    LookupEnvAsSlice (fun _ => none) "X" ["a"] = ["a"] :=
  ⟨((LookupEnvAsSlice_split_or_fallback
      (fun k => if k = "X" then some "foo,bar" else none) "X" ["a"]).1 "foo,bar"
      (by decide)).trans (by decide),
   (LookupEnvAsSlice_split_or_fallback (fun _ => none) "X" ["a"]).2 rfl⟩

/-- C10: when the key is present with value `v`, the slice returned by
`LookupEnvAsSlice` is non-empty, none of its elements contains a comma, its
length is the number of commas of `v` plus one, and joining it with `","`
gives `v` back; for the empty value it is the one-element slice `[""]`. -/
theorem LookupEnvAsSlice_present_pieces (env : Environ) (key : String)
    (fallback : List String) (v : String) (hv : env key = some v) :
    LookupEnvAsSlice env key fallback ≠ [] ∧
    (∀ x ∈ LookupEnvAsSlice env key fallback, ',' ∉ x.data) ∧
    (LookupEnvAsSlice env key fallback).length = v.data.count ',' + 1 ∧
    Join (LookupEnvAsSlice env key fallback) "," = v ∧
    (v = "" → LookupEnvAsSlice env key fallback = [""]) := by
  have hr : LookupEnvAsSlice env key fallback = (splitOnCommas v.data).map String.mk := by
    simp only [LookupEnvAsSlice, hv, Split, genSplit_eq_splitOnCommas]
  rw [hr]
  refine ⟨?_, ?_, ?_, ?_, ?_⟩
  · simpa using splitOnCommas_ne_nil v.data
  · intro x hx
    obtain ⟨piece, hp, rfl⟩ := List.mem_map.mp hx
    exact splitOnCommas_no_comma v.data piece hp
  · rw [List.length_map, splitOnCommas_length]
  · exact Join_splitOnCommas v.data
  · rintro rfl
    rfl

/-- Instance of C10: a variable set to the empty value gives `[""]`, not the
fallback and not the empty slice. -/
theorem LookupEnvAsSlice_present_pieces_witness :
    LookupEnvAsSlice (fun k => if k = "X" then some "" else none) "X" ["a"] = [""] :=
  (LookupEnvAsSlice_present_pieces (fun k => if k = "X" then some "" else none) "X" ["a"] ""
    (by decide)).2.2.2.2 rfl

/-! ## `From`, `Process` and `FromConfigMap` -/

/-- C7: `From` decodes first and overlays second.  If decoding fails, `From`
returns the decode error with the target as the decoder left it, whatever
the overlay would do (the overlay is not run); if decoding succeeds, `From`
returns exactly what the overlay returns on the decoded target; so `From`
returns no error only if both steps returned none. -/
theorem From_decode_then_overlay {τ : Type} (yamlDecode : String → τ → τ × Option Error)
    (envProcess : τ → τ × Option Error) (input : String) (i : τ) :
    (∀ i₁ err, yamlDecode input i = (i₁, some err) →
      ∀ overlay : τ → τ × Option Error,
        From yamlDecode overlay input i = (i₁, some err)) ∧
    (∀ i₁, yamlDecode input i = (i₁, none) →
      From yamlDecode envProcess input i = envProcess i₁) ∧
    ((From yamlDecode envProcess input i).2 = none →
      (yamlDecode input i).2 = none ∧ (envProcess (yamlDecode input i).1).2 = none) := by
  refine ⟨?_, ?_, ?_⟩
  · intro i₁ err h overlay
    simp only [From, h]
  · intro i₁ h
    simp only [From, h]
  · intro h
    unfold From at h
    rcases hd : yamlDecode input i with ⟨i₁, _ | err⟩
    · rw [hd] at h
      exact ⟨rfl, h⟩
    · rw [hd] at h
      simp at h

/-- Instance of C7: a decoder that fails on the empty document and an
overlay that rewrites the target. -/
theorem From_decode_then_overlay_witness :
    From (fun inp (t : String) => if inp = "" then (t, some "EOF") else (inp, none))
        (fun t => (t ++ "!", none)) "" "zero" = ("zero", some "EOF") ∧
    From (fun inp (t : String) => if inp = "" then (t, some "EOF") else (inp, none))
        (fun t => (t ++ "!", none)) "a" "zero" = ("a!", none) :=
  ⟨(From_decode_then_overlay
      (fun inp (t : String) => if inp = "" then (t, some "EOF") else (inp, none))
      (fun t => (t ++ "!", none)) "" "zero").1 "zero" "EOF" (by decide) _,
   ((From_decode_then_overlay
      (fun inp (t : String) => if inp = "" then (t, some "EOF") else (inp, none))
      (fun t => (t ++ "!", none)) "a" "zero").2.1 "a" (by decide)).trans (by decide)⟩

/-- C6: when the file at the fixed path cannot be read, `FromConfigMap`
returns what `Process` returns on the same target (the read error is not
reported); when it can be read, it returns what `From` returns on the
contents of the file. -/
theorem FromConfigMap_unreadable_or_readable {τ : Type}
    (readFile : String → Except Error String)
    (yamlDecode : String → τ → τ × Option Error)
    (envProcess : τ → τ × Option Error) (i : τ) :
    (∀ e, readFile "/etc/app/config.yaml" = .error e →
      FromConfigMap readFile yamlDecode envProcess i = Process envProcess i) ∧
    (∀ b, readFile "/etc/app/config.yaml" = .ok b →
      FromConfigMap readFile yamlDecode envProcess i = From yamlDecode envProcess b i) := by
  refine ⟨?_, ?_⟩
  · intro e h
    simp only [FromConfigMap, configMapPath, h, Process]
  · intro b h
    simp only [FromConfigMap, configMapPath, h]

/-- Instance of C6: with no file mounted the result is the overlay alone,
with a file it is that of `From` on its contents. -/
theorem FromConfigMap_unreadable_or_readable_witness :
    FromConfigMap (fun _ => .error "no such file")
        (fun inp (_ : String) => (inp, none)) (fun t => (t ++ "!", none)) "zero"
      = ("zero!", none) ∧
    FromConfigMap (fun _ => .ok "a")
        (fun inp (_ : String) => (inp, none)) (fun t => (t ++ "!", none)) "zero"
      = ("a!", none) :=
  ⟨((FromConfigMap_unreadable_or_readable (fun _ => .error "no such file")
      (fun inp (_ : String) => (inp, none)) (fun t => (t ++ "!", none)) "zero").1
      "no such file" rfl).trans (by decide),
   ((FromConfigMap_unreadable_or_readable (fun _ => .ok "a")
      (fun inp (_ : String) => (inp, none)) (fun t => (t ++ "!", none)) "zero").2
      "a" rfl).trans (by decide)⟩

end config

/-! ## The key set built by `Serve` -/

namespace core

theorem foldl_mapInsert_spec (mode acc : List ServerMode) (hacc : acc.Nodup) :
    (mode.foldl mapInsert acc).Nodup ∧
    ∀ m, m ∈ mode.foldl mapInsert acc ↔ m ∈ acc ∨ m ∈ mode := by
  induction mode generalizing acc with
  | nil => simp [hacc]
  | cons x xs ih =>
    have hins : (mapInsert acc x).Nodup := by
      unfold mapInsert
      split
      · exact hacc
      · rename_i hx
        exact List.nodup_append.mpr ⟨hacc, List.nodup_singleton x, by
          intro a ha hb
          rw [List.mem_singleton] at hb
          exact hx (hb ▸ ha)⟩
    have hmem : ∀ m, m ∈ mapInsert acc x ↔ m ∈ acc ∨ m = x := by
      intro m
      unfold mapInsert
      split
      · rename_i hx
        constructor
        · exact Or.inl
        · rintro (h | rfl)
          · exact h
          · exact hx
      · simp
    obtain ⟨h₁, h₂⟩ := ih (mapInsert acc x) hins
    refine ⟨h₁, fun m => ?_⟩
    rw [List.foldl_cons, h₂ m, hmem m, List.mem_cons, or_assoc]

theorem modeSet_nodup (mode : List ServerMode) : (modeSet mode).Nodup :=
  (foldl_mapInsert_spec mode [] List.nodup_nil).1

theorem mem_modeSet (mode : List ServerMode) (m : ServerMode) :
    m ∈ modeSet mode ↔ m ∈ mode := by
  have h := (foldl_mapInsert_spec mode [] List.nodup_nil).2 m
  simpa [modeSet] using h

theorem count_modeSet (mode : List ServerMode) (m : ServerMode) :
    (modeSet mode).count m = if m ∈ mode then 1 else 0 := by
  rw [List.count_eq_of_nodup (modeSet_nodup mode)]
  simp only [mem_modeSet]

theorem modes_ne : ServerModeGRPC ≠ ServerModeHTTP := by decide

theorem workers_append (es fs : List Event) : workers (es ++ fs) = workers es ++ workers fs := by
  induction es with
  | nil => rfl
  | cons e es ih =>
    cases e with
    | add => simpa [workers] using ih
    | spawn w => simp [workers, ih]

theorem workers_serveStep (m : ServerMode) :
    workers (serveStep m) =
      if m = ServerModeGRPC then [Worker.grpc]
      else if m = ServerModeHTTP then [Worker.http] else [] := by
  unfold serveStep
  split
  · rfl
  · split <;> rfl

theorem count_grpc_serveLoop (order : List ServerMode) :
    (workers (serveLoop order)).count Worker.grpc = order.count ServerModeGRPC := by
  induction order with
  | nil => rfl
  | cons m ms ih =>
    rw [serveLoop, workers_append, List.count_append, ih, workers_serveStep, List.count_cons]
    by_cases h₁ : m = ServerModeGRPC
    · subst h₁
      simp
      omega
    · by_cases h₂ : m = ServerModeHTTP
      · subst h₂
        simp [modes_ne.symm]
      · simp [h₁, h₂]

theorem count_http_serveLoop (order : List ServerMode) :
    (workers (serveLoop order)).count Worker.http = order.count ServerModeHTTP := by
  induction order with
  | nil => rfl
  | cons m ms ih =>
    rw [serveLoop, workers_append, List.count_append, ih, workers_serveStep, List.count_cons]
    by_cases h₁ : m = ServerModeGRPC
    · subst h₁
      simp [modes_ne]
    · by_cases h₂ : m = ServerModeHTTP
      · subst h₂
        simp [modes_ne.symm]
        omega
      · simp [h₁, h₂]

theorem length_workers_serveLoop (order : List ServerMode) :
    (workers (serveLoop order)).length = (order.filter known).length := by
  induction order with
  | nil => rfl
  | cons m ms ih =>
    rw [serveLoop, workers_append, List.length_append, ih, workers_serveStep, List.filter_cons]
    by_cases h₁ : m = ServerModeGRPC
    · subst h₁
      simp [known]
      omega
    · by_cases h₂ : m = ServerModeHTTP
      · subst h₂
        simp [known, modes_ne.symm]
        omega
      · simp [h₁, h₂, known]

theorem addCount_serveStep (m : ServerMode) : addCount (serveStep m) = 1 := by
  unfold addCount serveStep
  split
  · rfl
  · split <;> rfl

theorem addCount_serveLoop (order : List ServerMode) :
    addCount (serveLoop order) = order.length := by
  induction order with
  | nil => rfl
  | cons m ms ih =>
    have h := addCount_serveStep m
    unfold addCount at ih h ⊢
    rw [serveLoop, List.count_append, ih, h, List.length_cons]
    omega

theorem HasPrefix_iff (s pre : String) : HasPrefix s pre = true ↔ pre.data <+: s.data := by
  unfold HasPrefix
  rw [Bool.and_eq_true, decide_eq_true_eq, beq_iff_eq, List.prefix_iff_eq_take]
  constructor
  · rintro ⟨_, h⟩
    exact h.symm
  · intro h
    refine ⟨?_, h.symm⟩
    have := congrArg List.length h
    rw [List.length_take] at this
    omega

end core

/-! ## The HTTP handler -/

namespace core

/-- C3: the handler of the HTTP server calls the gateway mux exactly when the
URL path starts with `/v1` and the documentation handler otherwise, and it
calls exactly one handler per request; `/v1/version` goes to the mux and `/`
to the documentation handler. -/
theorem httpHandler_dispatch (path : String) :
    (httpHandler path = [Handler.mux] ↔ "/v1".data <+: path.data) ∧
    (httpHandler path = [Handler.openAPI] ↔ ¬ "/v1".data <+: path.data) ∧
    (httpHandler path).length = 1 ∧
    httpHandler "/v1/version" = [Handler.mux] ∧
    httpHandler "/" = [Handler.openAPI] := by
  refine ⟨?_, ?_, ?_, by decide, by decide⟩
  · rw [← HasPrefix_iff]
    unfold httpHandler
    split <;> simp_all
  · rw [← HasPrefix_iff]
    unfold httpHandler
    split <;> simp_all
  · unfold httpHandler
    split <;> rfl

/-! ## `Serve` -/

/-- C1, as stated, fails: for the mode list `["FOO"]` the key set has one
mode and `Serve` starts no worker, so the workers started are not one per
distinct mode of the list. -/
theorem Serve_one_worker_per_mode_fails :
    ¬ ∀ (c : Core) (order : List ServerMode), RangeOrder c order →
        (workers (serveLoop order)).length = (modeSet c.Mode).length := by
  intro h
  have h₁ := h (NewCore ":50051" ":8080" ["FOO"] id (fun _ => none)) ["FOO"]
    (List.Perm.refl _)
  revert h₁
  decide

/-- C1, amended: in whatever order the keys are visited, `Serve` starts the
gRPC worker exactly once if `ServerModeGRPC` occurs in the list and not at
all otherwise, and likewise the HTTP worker for `ServerModeHTTP`; the workers
started are one per distinct mode of the list that is one of these two, and
none for any other mode.  For the list `[GRPC]` the HTTP worker is not
started. -/
theorem Serve_starts_one_worker_per_known_mode (c : Core) (order : List ServerMode)
    (h : RangeOrder c order) :
    (workers (serveLoop order)).count Worker.grpc
      = (if ServerModeGRPC ∈ c.Mode then 1 else 0) ∧
    (workers (serveLoop order)).count Worker.http
      = (if ServerModeHTTP ∈ c.Mode then 1 else 0) ∧
    (workers (serveLoop order)).length = ((modeSet c.Mode).filter known).length ∧
    (c.Mode = [ServerModeGRPC] → Worker.http ∉ workers (serveLoop order)) := by
  have hg : (workers (serveLoop order)).count Worker.grpc
      = (if ServerModeGRPC ∈ c.Mode then 1 else 0) := by
    rw [count_grpc_serveLoop, List.Perm.count_eq h, count_modeSet]
  have hh : (workers (serveLoop order)).count Worker.http
      = (if ServerModeHTTP ∈ c.Mode then 1 else 0) := by
    rw [count_http_serveLoop, List.Perm.count_eq h, count_modeSet]
  refine ⟨hg, hh, ?_, ?_⟩
  · rw [length_workers_serveLoop]
    exact (List.Perm.filter known h).length_eq
  · intro hm hmem
    have hpos := List.count_pos_iff.mpr hmem
    rw [hh, hm] at hpos
    revert hpos
    decide

/-- Instance of the amended C1: for the list `[GRPC, HTTP, GRPC]`, visited as
`HTTP`, `GRPC`, each worker is started once. -/
theorem Serve_starts_one_worker_per_known_mode_witness :
    (workers (serveLoop [ServerModeHTTP, ServerModeGRPC])).count Worker.grpc = 1 ∧
    (workers (serveLoop [ServerModeHTTP, ServerModeGRPC])).count Worker.http = 1 :=
  have h := Serve_starts_one_worker_per_known_mode
    (NewCore ":50051" ":8080" [ServerModeGRPC, ServerModeHTTP, ServerModeGRPC] id
      (fun _ => none))
    [ServerModeHTTP, ServerModeGRPC] (List.Perm.swap _ _ _)
  ⟨h.1.trans (by decide), h.2.1.trans (by decide)⟩

/-- C2 at the mode list `["FOO"]`: `Serve` calls `wg.Add(1)` once and starts
no worker, so the counter `wg.Wait()` waits on stays at one and `Serve` does
not return, although no worker is running.  The same happens for
`["GRPC", "FOO"]` once the gRPC worker has exited without an error. -/
theorem Serve_unknown_mode_never_returns (net : Net) :
    RangeOrder (NewCore ":50051" ":8080" ["FOO"] id (fun _ => none)) ["FOO"] ∧
    addCount (serveLoop ["FOO"]) = 1 ∧
    workers (serveLoop ["FOO"]) = [] ∧
    Serve (NewCore ":50051" ":8080" ["FOO"] id (fun _ => none)) net ["FOO"]
      = Outcome.waiting ∧
    Serve (NewCore ":50051" ":8080" ["GRPC", "FOO"] id (fun _ => none))
        { Listen := fun _ => none
          GrpcServe := fun _ => CallResult.returns none
          ListenAndServe := fun _ => CallResult.blocks } ["GRPC", "FOO"]
      = Outcome.waiting :=
  ⟨List.Perm.refl _, by decide, by decide, rfl, by decide⟩

theorem goroutine_isFatal (c : Core) (net : Net) (w : Worker) :
    (goroutine c net w).isFatal = true ↔ ∃ err, start c net w = CallResult.returns (some err) := by
  unfold goroutine
  rcases hs : start c net w with _ | _ | err
  · simp [Exit.isFatal]
  · simp [Exit.isFatal]
  · cases w <;> simp [Exit.isFatal]

/-- C4: if the start function of any worker that `Serve` started returns an
error, the process exits, whatever the other worker does; the error comes
from the gRPC listener, the gRPC serve call, the HTTP registration callback
or the HTTP listen-and-serve call; and `Serve` neither returns nor keeps
waiting after such an error. -/
theorem Serve_exits_on_worker_error (c : Core) (net : Net) (order : List ServerMode) :
    (∀ w err, w ∈ workers (serveLoop order) →
      start c net w = CallResult.returns (some err) →
      Serve c net order = Outcome.processExited) ∧
    (∀ err, net.Listen c.GRPCAddress = some err →
      start c net Worker.grpc = CallResult.returns (some err)) ∧
    (∀ err, net.Listen c.GRPCAddress = none →
      net.GrpcServe (c.RegisterGRPCFunc []) = CallResult.returns (some err) →
      start c net Worker.grpc = CallResult.returns (some err)) ∧
    (∀ err, c.RegisterHTTPFunc c.GRPCAddress = some err →
      start c net Worker.http = CallResult.returns (some err)) ∧
    (∀ err, c.RegisterHTTPFunc c.GRPCAddress = none →
      net.ListenAndServe c.HTTPAddress = CallResult.returns (some err) →
      start c net Worker.http = CallResult.returns (some err)) ∧
    (Serve c net order ≠ Outcome.processExited →
      ∀ w ∈ workers (serveLoop order), ∀ err,
        start c net w ≠ CallResult.returns (some err)) := by
  have key : ∀ w err, w ∈ workers (serveLoop order) →
      start c net w = CallResult.returns (some err) →
      Serve c net order = Outcome.processExited := by
    intro w err hw he
    have hany : ((workers (serveLoop order)).map (goroutine c net)).any Exit.isFatal = true := by
      rw [List.any_eq_true]
      exact ⟨goroutine c net w, List.mem_map_of_mem _ hw,
        (goroutine_isFatal c net w).mpr ⟨err, he⟩⟩
    simp only [Serve, hany, if_true]
  refine ⟨key, ?_, ?_, ?_, ?_, ?_⟩
  · intro err h
    simp only [start, startGRPCServer, h]
  · intro err h₁ h₂
    simp only [start, startGRPCServer, h₁, h₂]
  · intro err h
    simp only [start, startHTTPServer, h]
  · intro err h₁ h₂
    simp only [start, startHTTPServer, h₁, h₂]
  · intro hne w hw err he
    exact hne (key w err hw he)

/-- Instance of C4: with both workers started, a gRPC server that serves
forever and an HTTP address that cannot be bound, the process exits. -/
theorem Serve_exits_on_worker_error_witness :
    Serve (NewCore ":50051" ":8080" [ServerModeGRPC, ServerModeHTTP] id (fun _ => none))
        { Listen := fun _ => none
          GrpcServe := fun _ => CallResult.blocks
          ListenAndServe := fun _ => CallResult.returns (some "address already in use") }
        [ServerModeGRPC, ServerModeHTTP]
      = Outcome.processExited :=
  (Serve_exits_on_worker_error
      (NewCore ":50051" ":8080" [ServerModeGRPC, ServerModeHTTP] id (fun _ => none))
      { Listen := fun _ => none
        GrpcServe := fun _ => CallResult.blocks
        ListenAndServe := fun _ => CallResult.returns (some "address already in use") }
      [ServerModeGRPC, ServerModeHTTP]).1 Worker.http "address already in use"
    (by decide) (by decide)

end core
